import Mathlib

/-!
Verification of the eden-crypto repository against its specification.

This file contains a shallow embedding of the core modules
(`prime_generator.py`, `extended_wheel.py`, `decimal_rivers.py`,
`coibite_codes.py`) as executable Lean definitions, together with theorems
settling the specification claims C1 through C10.

Modelling conventions:
* Python nonnegative integers are modelled as `Nat`.  All integer quantities
  appearing in the claims are nonnegative.
* Python floats that only ever feed string formatting or exact comparisons
  far from rounding boundaries (the timestamp, the decimal-weight table) are
  modelled exactly: the timestamp as a `Nat`, the weight table as integer
  hundredths.  No claim depends on floating-point rounding.
* Python's unbounded `while` loops are modelled with an explicit fuel
  parameter; theorems quantify over all sufficient fuels, and safety
  properties are proved for every fuel.
* `random`/`secrets` draws are modelled as an explicit stream argument
  `Nat → Nat`; theorems quantify over all streams.
* Python attribute lookup on the two classes whose methods the generator
  invokes is modelled by explicit tables of the attribute names that the
  classes actually define; looking up a missing name yields an
  `AttributeError` value, exactly as Python raises one.
-/

namespace EdenCrypto

/-- Python `range(a, b, step)` for `step ≥ 1`, as a list. -/
def pyRange (a b step : Nat) : List Nat :=
  List.range' a ((b - a + step - 1) / step) step

/-- Downward search for the integer square root: the largest `m ≤ k` with
`m * m ≤ n`. -/
def isqrtDown : Nat → Nat → Nat
  | 0, _ => 0
  | k + 1, n => if (k + 1) * (k + 1) ≤ n then k + 1 else isqrtDown k n

/-- Python `int(x ** 0.5)` on a nonnegative int, modelled as the exact
integer square root.  The model is faithful for `x < 2^50`: the int
converts to float exactly (`x < 2^53`), the power lands within one ulp
(absolute error below `2^-27` here) of `√x`, and when `x` is not a perfect
square `√x` lies at least `2^-26` below the next integer, so truncation
yields exactly `⌊√x⌋`.  For larger `x` the float computation can
undershoot `⌊√x⌋` (and beyond ~1.8·10^308 the power raises
`OverflowError`), so every theorem that evaluates this model on an
unbounded argument carries an explicit `< 2^50` bound.  Implemented by
structural recursion so that the kernel can evaluate it. -/
def isqrt (n : Nat) : Nat := isqrtDown n n

theorem isqrtDown_le (k n : Nat) : isqrtDown k n * isqrtDown k n ≤ n := by
  induction k with
  | zero => simp [isqrtDown]
  | succ k ih =>
    rw [isqrtDown]
    split
    · assumption
    · exact ih

theorem le_isqrtDown {m n : Nat} (k : Nat) (hk : m ≤ k) (h : m * m ≤ n) :
    m ≤ isqrtDown k n := by
  induction k with
  | zero => omega
  | succ k ih =>
    rw [isqrtDown]
    split
    · omega
    · rename_i hlt
      have hm : m ≠ k + 1 := by rintro rfl; exact hlt h
      exact ih (by omega)

/-- Characterization matching `Nat.le_sqrt`. -/
theorem le_isqrt {m n : Nat} (h : m * m ≤ n) : m ≤ isqrt n := by
  have hmn : m ≤ n := by
    rcases Nat.eq_zero_or_pos m with rfl | hm
    · omega
    · calc m = m * 1 := by omega
        _ ≤ m * m := Nat.mul_le_mul_left m hm
        _ ≤ n := h
  exact le_isqrtDown n hmn h

/-- Decimal digits, most significant first, by fueled division;
`fuel ≥ n` always suffices. -/
def natDigitsF : Nat → Nat → List Nat
  | 0, n => [n]
  | fuel + 1, n => if n < 10 then [n] else natDigitsF fuel (n / 10) ++ [n % 10]

/-- Decimal digits of `n`, most significant first (`natDigits 0 = [0]`),
the digit sequence produced by Python `str` on a nonnegative int. -/
def natDigits (n : Nat) : List Nat := natDigitsF n n

/-- Python `str` on a nonnegative int: its decimal representation. -/
def strOfNat (n : Nat) : String :=
  String.mk ((natDigits n).map (fun d => Char.ofNat (48 + d)))

/-- Fold a digit list back into the number it denotes. -/
def digitsToNat (ds : List Nat) : Nat :=
  ds.foldl (fun a d => a * 10 + d) 0

/-- One char of a decimal string back to its digit, `none` if not a digit. -/
def charDigit (c : Char) : Option Nat :=
  if 48 ≤ c.toNat ∧ c.toNat ≤ 57 then some (c.toNat - 48) else none

/-- Python `int(s)` on a string of decimal digits: `none` models the
`ValueError` that `int` raises on malformed input. -/
def intOfStr (s : String) : Option Nat :=
  match s.data.mapM charDigit with
  | none => none
  | some ds => if ds = [] then none else some (digitsToNat ds)

theorem digitsToNat_append (xs ys : List Nat) :
    digitsToNat (xs ++ ys) = ys.foldl (fun a d => a * 10 + d) (digitsToNat xs) := by
  simp [digitsToNat, List.foldl_append]

theorem natDigitsF_lt : ∀ fuel n, n ≤ fuel → ∀ d ∈ natDigitsF fuel n, d < 10 := by
  intro fuel
  induction fuel with
  | zero => intro n hn d hd; simp [natDigitsF] at hd; omega
  | succ fuel ih =>
    intro n hn d hd
    rw [natDigitsF] at hd
    split at hd
    · simp at hd; omega
    · rename_i h
      rcases List.mem_append.mp hd with h1 | h2
      · exact ih (n / 10) (by omega) d h1
      · simp at h2; omega

theorem natDigits_lt (n : Nat) : ∀ d ∈ natDigits n, d < 10 :=
  natDigitsF_lt n n (Nat.le_refl n)

theorem digitsToNat_natDigitsF :
    ∀ fuel n, n ≤ fuel → digitsToNat (natDigitsF fuel n) = n := by
  intro fuel
  induction fuel with
  | zero => intro n hn; have : n = 0 := by omega
            subst this; simp [natDigitsF, digitsToNat]
  | succ fuel ih =>
    intro n hn
    rw [natDigitsF]
    split
    · simp [digitsToNat]
    · rename_i h
      rw [digitsToNat_append, ih (n / 10) (by omega)]
      simp only [List.foldl_cons, List.foldl_nil]
      omega

theorem digitsToNat_natDigits (n : Nat) : digitsToNat (natDigits n) = n :=
  digitsToNat_natDigitsF n n (Nat.le_refl n)

theorem natDigits_ne_nil (n : Nat) : natDigits n ≠ [] := by
  unfold natDigits
  cases n with
  | zero => simp [natDigitsF]
  | succ m => rw [natDigitsF]; split <;> simp

theorem charDigit_ofNat {d : Nat} (h : d < 10) :
    charDigit (Char.ofNat (48 + d)) = some d := by
  interval_cases d <;> decide

theorem mapM_charDigit_map (ds : List Nat) (h : ∀ d ∈ ds, d < 10) :
    (ds.map (fun d => Char.ofNat (48 + d))).mapM charDigit = some ds := by
  induction ds with
  | nil => rfl
  | cons d ds ih =>
    simp only [List.map_cons, List.mapM_cons]
    rw [charDigit_ofNat (h d (by simp)), ih (fun x hx => h x (by simp [hx]))]
    rfl

/-- Python `int(str(n)) = n` for nonnegative `n`. -/
theorem intOfStr_strOfNat (n : Nat) : intOfStr (strOfNat n) = some n := by
  have hdata : (strOfNat n).data = (natDigits n).map (fun d => Char.ofNat (48 + d)) := rfl
  unfold intOfStr
  rw [hdata, mapM_charDigit_map _ (natDigits_lt n)]
  show (if natDigits n = [] then none else some (digitsToNat (natDigits n))) = some n
  rw [if_neg (natDigits_ne_nil n), digitsToNat_natDigits]

/-! ## SHA-256

`coibite_codes.py` uses `hashlib.sha256(...).hexdigest()` for the prime hash
and the (truncated) integrity checksum.  We implement SHA-256 executably over
byte lists, with 32-bit words as `Nat` reduced mod `2^32`. -/

namespace Sha256

/-- Reduce to a 32-bit word. -/
def w32 (n : Nat) : Nat := n % 4294967296

/-- 32-bit right rotation. -/
def rotr (x n : Nat) : Nat := w32 ((x >>> n) ||| (x <<< (32 - n)))

/-- 32-bit bitwise complement. -/
def compl32 (x : Nat) : Nat := x ^^^ 4294967295

/-- The 64 SHA-256 round constants. -/
def K : List Nat :=
  [1116352408, 1899447441, 3049323471, 3921009573, 961987163,
   1508970993, 2453635748, 2870763221, 3624381080, 310598401,
   607225278, 1426881987, 1925078388, 2162078206, 2614888103,
   3248222580, 3835390401, 4022224774, 264347078, 604807628,
   770255983, 1249150122, 1555081692, 1996064986, 2554220882,
   2821834349, 2952996808, 3210313671, 3336571891, 3584528711,
   113926993, 338241895, 666307205, 773529912, 1294757372,
   1396182291, 1695183700, 1986661051, 2177026350, 2456956037,
   2730485921, 2820302411, 3259730800, 3345764771, 3516065817,
   3600352804, 4094571909, 275423344, 430227734, 506948616,
   659060556, 883997877, 958139571, 1322822218, 1537002063,
   1747873779, 1955562222, 2024104815, 2227730452, 2361852424,
   2428436474, 2756734187, 3204031479, 3329325298]

/-- The SHA-256 initial hash value. -/
def H0 : List Nat :=
  [1779033703, 3144134277, 1013904242, 2773480762,
   1359893119, 2600822924, 528734635, 1541459225]

/-- SHA-256 padding: append `0x80`, zeros, and the 64-bit big-endian bit
length, reaching a multiple of 64 bytes. -/
def padded (ms : List Nat) : List Nat :=
  let L := ms.length
  let z := (119 - L % 64) % 64
  ms ++ [128] ++ List.replicate z 0 ++
    (List.range 8).map (fun i => ((8 * L) >>> (56 - 8 * i)) % 256)

/-- Pack bytes into big-endian 32-bit words. -/
def toWords : List Nat → List Nat
  | b0 :: b1 :: b2 :: b3 :: rest =>
      (((b0 * 256 + b1) * 256 + b2) * 256 + b3) :: toWords rest
  | _ => []

/-- Split a word list into 16-word blocks (fueled for kernel reducibility). -/
def toBlocks : Nat → List Nat → List (List Nat)
  | 0, _ => []
  | _, [] => []
  | fuel + 1, ws => ws.take 16 :: toBlocks fuel (ws.drop 16)

def smallSigma0 (x : Nat) : Nat := rotr x 7 ^^^ rotr x 18 ^^^ (x >>> 3)

def smallSigma1 (x : Nat) : Nat := rotr x 17 ^^^ rotr x 19 ^^^ (x >>> 10)

/-- Extend a block by one message-schedule word. -/
def scheduleStep (ws : List Nat) (_i : Nat) : List Nat :=
  let n := ws.length
  let g := fun (k : Nat) => ws.getD (n - k) 0
  ws ++ [w32 (smallSigma1 (g 2) + g 7 + smallSigma0 (g 15) + g 16)]

/-- The 64-word message schedule of one block. -/
def schedule (block : List Nat) : List Nat :=
  (List.range 48).foldl scheduleStep block

/-- One compression round on state `[a,b,c,d,e,f,g,h]`. -/
def round (st : List Nat) (k w : Nat) : List Nat :=
  match st with
  | [a, b, c, d, e, f, g, h] =>
    let S1 := rotr e 6 ^^^ rotr e 11 ^^^ rotr e 25
    let ch := (e &&& f) ^^^ (compl32 e &&& g)
    let t1 := w32 (h + S1 + ch + k + w)
    let S0 := rotr a 2 ^^^ rotr a 13 ^^^ rotr a 22
    let maj := (a &&& b) ^^^ (a &&& c) ^^^ (b &&& c)
    let t2 := w32 (S0 + maj)
    [w32 (t1 + t2), a, b, c, w32 (d + t1), e, f, g]
  | _ => st

/-- Compress one 16-word block into the running hash. -/
def processBlock (h : List Nat) (block : List Nat) : List Nat :=
  let st := (K.zip (schedule block)).foldl (fun s kw => round s kw.1 kw.2) h
  (h.zip st).map (fun p => w32 (p.1 + p.2))

/-- The eight-word SHA-256 digest of a byte list. -/
def digest (ms : List Nat) : List Nat :=
  let ws := toWords (padded ms)
  (toBlocks ws.length ws).foldl processBlock H0

def hexDigit (d : Nat) : Char :=
  if d < 10 then Char.ofNat (48 + d) else Char.ofNat (87 + d)

/-- Lowercase hex of one 32-bit word. -/
def wordHex (x : Nat) : String :=
  String.mk ((List.range 8).map (fun i => hexDigit ((x >>> (28 - 4 * i)) % 16)))

/-- `hashlib.sha256(bytes).hexdigest()`: 64 lowercase hex characters. -/
def hexdigest (ms : List Nat) : String :=
  String.join ((digest ms).map wordHex)

end Sha256

/-- UTF-8 bytes of a string; all strings hashed by the repository are ASCII,
on which UTF-8 is the identity on code points. -/
def asciiBytes (s : String) : List Nat := s.data.map Char.toNat

/-! ## JSON values

`coibite_codes.py` serializes records with `json.dumps(..., sort_keys=True)`.
We model JSON-like Python values (the `metadata` mapping and the values
compared by `verify_integrity`) by an inductive type, and the canonical dump
as recursive key-sorting followed by printing. -/

inductive JValue where
  | null : JValue
  | bool (b : Bool) : JValue
  | num (n : Int) : JValue
  | str (s : String) : JValue
  | arr (elts : List JValue) : JValue
  | obj (fields : List (String × JValue)) : JValue

/-- Python `==` between an arbitrary value and a `str`: true only when the
value is an equal string; values of a different type are never equal to a
string in Python. -/
def pyEqStr (v : JValue) (s : String) : Bool :=
  match v with
  | .str t => t == s
  | _ => false

/-- Insert one keyed field into a key-sorted field list. -/
def insortField (kv : String × JValue) : List (String × JValue) → List (String × JValue)
  | [] => [kv]
  | kv' :: rest =>
      if kv.1 ≤ kv'.1 then kv :: kv' :: rest else kv' :: insortField kv rest

/-- Sort fields of one object level by key (Python sorts by code points,
which is the `String` order). -/
def insortByKey : List (String × JValue) → List (String × JValue)
  | [] => []
  | kv :: rest => insortField kv (insortByKey rest)

mutual

/-- Recursively sort every object's fields by key, as
`json.dumps(..., sort_keys=True)` does. -/
def sortDeep : JValue → JValue
  | .null => .null
  | .bool b => .bool b
  | .num n => .num n
  | .str s => .str s
  | .arr l => .arr (sortDeepList l)
  | .obj l => .obj (insortByKey (sortDeepFields l))

def sortDeepList : List JValue → List JValue
  | [] => []
  | v :: r => sortDeep v :: sortDeepList r

def sortDeepFields : List (String × JValue) → List (String × JValue)
  | [] => []
  | (k, v) :: r => (k, sortDeep v) :: sortDeepFields r

end

/-- JSON string escaping as Python's `json.dumps` with `ensure_ascii` does:
quote, backslash, the common control escapes, and `\uXXXX` for everything
outside printable ASCII. -/
def escChar (c : Char) : String :=
  if c = Char.ofNat 34 then "\\\""
  else if c = Char.ofNat 92 then "\\\\"
  else if c = Char.ofNat 10 then "\\n"
  else if c = Char.ofNat 9 then "\\t"
  else if c = Char.ofNat 13 then "\\r"
  else if c.toNat < 32 ∨ 126 < c.toNat then
    "\\u" ++ String.mk ((List.range 4).map (fun i => Sha256.hexDigit ((c.toNat >>> (12 - 4 * i)) % 16)))
  else String.mk [c]

/-- A JSON string literal. -/
def jsonStr (s : String) : String :=
  "\"" ++ String.join (s.data.map escChar) ++ "\""

/-- Decimal form of a Python int. -/
def intRepr : Int → String
  | .ofNat n => strOfNat n
  | .negSucc n => "-" ++ strOfNat (n + 1)

mutual

/-- Print a JSON value with `json.dumps`'s default separators. -/
def jsonPrint : JValue → String
  | .null => "null"
  | .bool true => "true"
  | .bool false => "false"
  | .num n => intRepr n
  | .str s => jsonStr s
  | .arr l => "[" ++ jsonPrintList l ++ "]"
  | .obj l => "\x7b" ++ jsonPrintObj l ++ "\x7d"

def jsonPrintList : List JValue → String
  | [] => ""
  | [v] => jsonPrint v
  | v :: rest => jsonPrint v ++ ", " ++ jsonPrintList rest

def jsonPrintObj : List (String × JValue) → String
  | [] => ""
  | [(k, v)] => jsonStr k ++ ": " ++ jsonPrint v
  | (k, v) :: rest => jsonStr k ++ ": " ++ jsonPrint v ++ ", " ++ jsonPrintObj rest

end

/-- `json.dumps(v, sort_keys=True)`. -/
def jsonDumps (v : JValue) : String := jsonPrint (sortDeep v)

/-! ## Coibite codes (`coibite_codes.py`)

The wire form of a token is `base64(json.dumps(data, sort_keys=True))`, a
reversible text encoding of the key-ordered field record below (spec §6).
We model the token at the structured level `EncodedData`; mutating the
metadata portion of a token so that it still decodes corresponds to altering
the `metadata` field of this record. -/

/-- Python dict `.get` on a string-keyed mapping. -/
def listGet (l : List (String × JValue)) (k : String) : Option JValue :=
  (l.find? (fun kv => kv.1 == k)).map Prod.snd

/-- `CoibiteCode.VERSION`. -/
def VERSION : String := "1.0"

/-- The mutable state of a `CoibiteCode` instance.  `timestamp` is a Python
float (`time.time()`); it is modelled as an exact value since no claim
depends on float rounding.  `signature` holds raw signature bytes (the
base64 transport encoding applied to it inside `encode` is a bijection on
byte strings and is modelled as the identity). -/
structure CoibiteCode where
  prime : Nat
  timestamp : Nat
  metadata : List (String × JValue)
  signature : Option (List Nat)

/-- `CoibiteCode.__init__`: `now` models `time.time()`;
`metadata or {}` turns an absent mapping into the empty one. -/
def CoibiteCode.init (now : Nat) (prime : Nat)
    (metadata : Option (List (String × JValue))) : CoibiteCode :=
  { prime := prime, timestamp := now, metadata := metadata.getD [],
    signature := none }

/-- `CoibiteCode._hash_prime`: SHA-256 of the decimal string of the prime. -/
def CoibiteCode.hashPrime (c : CoibiteCode) : String :=
  Sha256.hexdigest (asciiBytes (strOfNat c.prime))

/-- `CoibiteCode._calculate_checksum`:
first 16 hex chars of `sha256(f"{prime}:{timestamp}:{json.dumps(metadata, sort_keys=True)}")`. -/
def CoibiteCode.calculateChecksum (c : CoibiteCode) : String :=
  (Sha256.hexdigest (asciiBytes
    (strOfNat c.prime ++ ":" ++ strOfNat c.timestamp ++ ":" ++
      jsonDumps (.obj c.metadata)))).take 16

/-- `int.bit_length()`. -/
def bitLength (n : Nat) : Nat := if n = 0 then 0 else Nat.log2 n + 1

/-- The field record serialized by `CoibiteCode.encode` (the token is its
canonical key-ordered JSON, base64-encoded). -/
structure EncodedData where
  version : String
  timestamp : Nat
  prime_bits : Nat
  prime_hash : String
  metadata : List (String × JValue)
  checksum : String
  prime : Option String
  signature : Option (List Nat)

/-- `CoibiteCode.encode(include_prime)`. -/
def CoibiteCode.encode (c : CoibiteCode) (includePrime : Bool) : EncodedData :=
  { version := VERSION
  , timestamp := c.timestamp
  , prime_bits := bitLength c.prime
  , prime_hash := c.hashPrime
  , metadata := c.metadata
  , checksum := c.calculateChecksum
  , prime := if includePrime then some (strOfNat c.prime) else none
  , signature := c.signature }

/-- `CoibiteCode.decode`: checks the version tag, reconstructs the instance
from the wire fields (prime absent decodes as the placeholder `0`), restores
the wire timestamp and signature.  The surrounding `try`/`except` turns any
failure into `ValueError("Invalid Coibite Code")`, modelled as `.error`.
Note that the wire `checksum` field is not read at all. -/
def CoibiteCode.decode (now : Nat) (d : EncodedData) : Except String CoibiteCode :=
  if d.version ≠ VERSION then .error "Invalid Coibite Code"
  else
    match d.prime with
    | some s =>
        match intOfStr s with
        | none => .error "Invalid Coibite Code"
        | some p =>
            .ok { CoibiteCode.init now p (some d.metadata) with
                  timestamp := d.timestamp, signature := d.signature }
    | none =>
        .ok { CoibiteCode.init now 0 (some d.metadata) with
              timestamp := d.timestamp, signature := d.signature }

/-- `CoibiteCode.verify_integrity`: looks for a `"checksum"` key inside
`self.metadata` (not the wire checksum field!), reports `True` when absent,
otherwise compares its value with the recomputed checksum (a Python `==`
against a `str`). -/
def CoibiteCode.verifyIntegrity (c : CoibiteCode) : Bool :=
  match listGet c.metadata "checksum" with
  | none => true
  | some expected => pyEqStr expected c.calculateChecksum

/-- `CoibiteCode._get_signing_data`: canonical JSON of
`{prime_hash, timestamp, metadata}` (checksum and prime value excluded). -/
def CoibiteCode.signingData (c : CoibiteCode) : String :=
  jsonDumps (.obj
    [("metadata", .obj c.metadata),
     ("prime_hash", .str c.hashPrime),
     ("timestamp", .num c.timestamp)])

/-- `CoibiteCode.sign`: the ECDSA library primitive is passed in as
`ecdsaSign`; the method stores the produced signature bytes. -/
def CoibiteCode.sign (ecdsaSign : Nat → String → List Nat) (priv : Nat)
    (c : CoibiteCode) : CoibiteCode :=
  { c with signature := some (ecdsaSign priv (c.signingData)) }

/-- `CoibiteCode.verify`: the ECDSA library primitive `ecdsaVerify` either
accepts (`.ok`) or raises (`.error`, e.g. `InvalidSignature`); the method
returns `False` on a missing signature and converts every raised
verification failure into `False` via its `try`/`except`. -/
def CoibiteCode.verify (ecdsaVerify : Nat → List Nat → String → Except Unit Unit)
    (pub : Nat) (c : CoibiteCode) : Bool :=
  match c.signature with
  | none => false
  | some sig =>
      match ecdsaVerify pub sig (c.signingData) with
      | .ok _ => true
      | .error _ => false

/-! ## Decimal rivers (`decimal_rivers.py`) -/

/-- The mutable state of a `DecimalRivers` instance: a transition `Counter`
keyed by digit pairs, a digit-frequency `Counter`, and the prime cache.
Counters are association lists; a key is inserted on first increment with
count 1, so every stored count is positive. -/
structure DecimalRivers where
  transition_matrix : List ((Nat × Nat) × Nat)
  digit_frequencies : List (Nat × Nat)
  prime_cache : List Nat

/-- `DecimalRivers.__init__`: empty counters. -/
def DecimalRivers.empty : DecimalRivers := ⟨[], [], []⟩

/-- `Counter.__getitem__`: 0 for a missing key (and no insertion). -/
def counterGet (l : List (Nat × Nat)) (k : Nat) : Nat :=
  ((l.find? (fun kv => kv.1 == k)).map Prod.snd).getD 0

/-- `counter[k] += 1`. -/
def counterIncr (l : List (Nat × Nat)) (k : Nat) : List (Nat × Nat) :=
  if (l.find? (fun kv => kv.1 == k)).isSome then
    l.map (fun kv => if kv.1 == k then (kv.1, kv.2 + 1) else kv)
  else l ++ [(k, 1)]

/-- `transition_matrix[a][b] += 1`, with the nested
`defaultdict(Counter)` flattened to pair keys. -/
def pairIncr (l : List ((Nat × Nat) × Nat)) (k : Nat × Nat) : List ((Nat × Nat) × Nat) :=
  if (l.find? (fun kv => kv.1 == k)).isSome then
    l.map (fun kv => if kv.1 == k then (kv.1, kv.2 + 1) else kv)
  else l ++ [(k, 1)]

/-- `DecimalRivers.analyze_primes`: caches the list, counts last digits of
entries `> 5`, and counts digit transitions of adjacent pairs both `> 5`.
(The compiled analysis dictionary it returns is not modelled; no claim
reads it.) -/
def DecimalRivers.analyzePrimes (st : DecimalRivers) (primes : List Nat) : DecimalRivers :=
  let freqs := primes.foldl
    (fun f p => if 5 < p then counterIncr f (p % 10) else f) st.digit_frequencies
  let trans := (primes.zip primes.tail).foldl
    (fun m pq => if 5 < pq.1 ∧ 5 < pq.2 then pairIncr m (pq.1 % 10, pq.2 % 10) else m)
    st.transition_matrix
  { prime_cache := primes, digit_frequencies := freqs, transition_matrix := trans }

/-- `DecimalRivers.get_river_score`: 0 for a last digit outside {1,3,7,9};
0.5 with an empty frequency counter; else `freq[lastDigit] / total`
(0.5 if the total is somehow 0).  The Python floats are exact here: the
quotient of two ints is modelled in `ℚ`. -/
def DecimalRivers.getRiverScore (st : DecimalRivers) (candidate : Nat) : ℚ :=
  let lastDigit := candidate % 10
  if lastDigit ∉ [1, 3, 7, 9] then 0
  else if st.digit_frequencies = [] then 1 / 2
  else
    let total := (st.digit_frequencies.map Prod.snd).sum
    let freq := counterGet st.digit_frequencies lastDigit
    if 0 < total then (freq : ℚ) / (total : ℚ) else 1 / 2

/-- The observation history of one `DecimalRivers` instance: the state after
a sequence of `analyze_primes` calls. -/
def riverStateOf (history : List (List Nat)) : DecimalRivers :=
  history.foldl DecimalRivers.analyzePrimes DecimalRivers.empty

/-! ## Extended wheel (`extended_wheel.py`) -/

/-- An `ExtendedWheel` instance.  `spokes` is derived deterministically from
these fields (`_generate_spokes`), so it is modelled as a function. -/
structure ExtendedWheel where
  wheel_size : Nat
  basis_primes : List Nat
  decimal_aware : Bool

/-- `WHEEL_BASIS` lookup. -/
def wheelBasis (wheelSize : Nat) : Option (List Nat) :=
  if wheelSize = 6 then some [2, 3]
  else if wheelSize = 30 then some [2, 3, 5]
  else if wheelSize = 210 then some [2, 3, 5, 7]
  else if wheelSize = 2310 then some [2, 3, 5, 7, 11]
  else if wheelSize = 30030 then some [2, 3, 5, 7, 11, 13]
  else none

/-- `ExtendedWheel.__init__`: `none` models the `ValueError` raised for an
unsupported wheel size. -/
def mkWheel (wheelSize : Nat) (decimalAware : Bool) : Option ExtendedWheel :=
  (wheelBasis wheelSize).map (fun b =>
    { wheel_size := wheelSize, basis_primes := b, decimal_aware := decimalAware })

/-- `_generate_spokes`: residues in `[1, wheel_size)` coprime to every
basis prime. -/
def ExtendedWheel.spokes (W : ExtendedWheel) : List Nat :=
  (List.range' 1 (W.wheel_size - 1)).filter
    (fun i => W.basis_primes.all (fun p => i % p != 0))

/-- `_compute_decimal_weights` in exact hundredths: the Python floats
1.02, 0.98, 1.01, 0.99 and 0.0 are only ever compared against 0.5, far from
rounding boundaries, so hundredths compared against 50 are exact.  The
final branch is the `.get(last_digit, 0.5)` default, unreachable since the
argument is always a digit. -/
def decimalWeightC (d : Nat) : Nat :=
  if d = 1 then 102
  else if d = 3 then 98
  else if d = 7 then 101
  else if d = 9 then 99
  else if d = 0 ∨ d = 2 ∨ d = 4 ∨ d = 5 ∨ d = 6 ∨ d = 8 then 0
  else 50

/-- The inner `for spoke in self.spokes` loop of `generate_candidates` for
one wheel block: the candidates yielded, and whether the generator
returned (`candidate > end`). -/
def spokesEmit (decimalAware : Bool) (base s e : Nat) : List Nat → List Nat × Bool
  | [] => ([], false)
  | spoke :: rest =>
      let candidate := base + spoke
      if s ≤ candidate ∧ candidate ≤ e then
        if decimalAware then
          if 50 < decimalWeightC (candidate % 10) then
            let r := spokesEmit decimalAware base s e rest
            (candidate :: r.1, r.2)
          else spokesEmit decimalAware base s e rest
        else
          let r := spokesEmit decimalAware base s e rest
          (candidate :: r.1, r.2)
      else if e < candidate then ([], true)
      else spokesEmit decimalAware base s e rest

/-- The `while current_wheel <= end` loop of `generate_candidates`, fueled;
each iteration advances by `wheel_size`, so `e + 1` fuel is always enough. -/
def genLoop (W : ExtendedWheel) (s e : Nat) : Nat → Nat → List Nat
  | 0, _ => []
  | fuel + 1, current =>
      if current ≤ e then
        match spokesEmit W.decimal_aware current s e W.spokes with
        | (ems, true) => ems
        | (ems, false) => ems ++ genLoop W s e fuel (current + W.wheel_size)
      else []

/-- `generate_candidates(start, end)` (the generator, as the list it
yields): basis primes in range, then spoke candidates from the first wheel
boundary at or after `start`.  `wheel_start` uses Python floor division;
for `start ≥ 1` it agrees with `Nat` division as written here (`start = 0`
is reachable only through `_segmented_sieve` and no theorem uses it). -/
def ExtendedWheel.generateCandidates (W : ExtendedWheel) (s e : Nat) : List Nat :=
  let wheelStart := ((s - 1) / W.wheel_size + 1) * W.wheel_size
  W.basis_primes.filter (fun p => decide (s ≤ p ∧ p ≤ e)) ++
    genLoop W s e (e + 1) wheelStart

/-- Python `range(a, b, step)` marking in `_get_small_primes`:
`is_prime[j] = False` for `j` in `range(i*i, limit+1, i)`. -/
def eratMark (limit : Nat) (l : List Bool) (i : Nat) : List Bool :=
  if l.getD i false then
    (pyRange (i * i) (limit + 1) i).foldl (fun acc j => acc.set j false) l
  else l

/-- `_get_small_primes(limit)`: plain sieve of Eratosthenes on a boolean
list, collecting the surviving indices in `[2, limit]`. -/
def getSmallPrimes (limit : Nat) : List Nat :=
  if limit < 2 then []
  else
    let init := ((List.replicate (limit + 1) true).set 0 false).set 1 false
    let final := (pyRange 2 (isqrt limit + 1) 1).foldl (eratMark limit) init
    (pyRange 2 (limit + 1) 1).filter (fun i => final.getD i false)

/-- The trial-division loop with break shared by `_simple_sieve`
(`if p * p > candidate: break; if candidate % p == 0: composite`) and by
module-level `is_prime_wheel`. -/
def trialLoop (c : Nat) : List Nat → Bool
  | [] => true
  | p :: rest =>
      if c < p * p then true
      else if c % p = 0 then false
      else trialLoop c rest

/-- `_simple_sieve(start, end)`: wheel candidates of `[max(2, start), end]`
kept when they survive trial division by the small primes up to
`int(end ** 0.5) + 1` (exact as `isqrt`). -/
def ExtendedWheel.simpleSieve (W : ExtendedWheel) (s e : Nat) : List Nat :=
  let candidates := W.generateCandidates (max 2 s) e
  let smallPrimes := getSmallPrimes (isqrt e + 1)
  candidates.filter (fun c => trialLoop c smallPrimes)

/-- The `start_idx` search of `_segmented_sieve`: index of the first
candidate divisible by `p` and different from `p`. -/
def firstIdxAux (p : Nat) : List Nat → Nat → Option Nat
  | [], _ => none
  | c :: rest, k =>
      if c % p = 0 ∧ c ≠ p then some k else firstIdxAux p rest (k + 1)

/-- `start_idx` with its Python default of 0 when no candidate qualifies. -/
def firstIdx (p : Nat) (cands : List Nat) : Nat := (firstIdxAux p cands 0).getD 0

/-- The marking loop of `_segmented_sieve` for one small prime:
`for i in range(start_idx, len(candidates), 1): if candidates[i] % p == 0
and candidates[i] != p: is_prime[i] = False`. -/
def markP (cands : List Nat) (flags : List Bool) (p : Nat) : List Bool :=
  (pyRange (firstIdx p cands) cands.length 1).foldl
    (fun fl i =>
      if (cands.getD i 0) % p = 0 ∧ cands.getD i 0 ≠ p then fl.set i false
      else fl)
    flags

/-- One segment of `_segmented_sieve`: mark against every small prime, then
collect the candidates whose flag survived. -/
def segSieve (smallPrimes cands : List Nat) : List Nat :=
  let flags := smallPrimes.foldl (markP cands) (List.replicate cands.length true)
  ((pyRange 0 cands.length 1).filter (fun i => flags.getD i false)).map
    (fun i => cands.getD i 0)

/-- The `while current <= end` segment loop of `_segmented_sieve`
(`segment_size = 100000`), fueled; each iteration advances by at least 1,
so `e + 1` fuel is always enough. -/
def segLoop (W : ExtendedWheel) (smallPrimes : List Nat) (e : Nat) :
    Nat → Nat → List Nat
  | 0, _ => []
  | fuel + 1, current =>
      if current ≤ e then
        let segEnd := min (current + 100000) e
        segSieve smallPrimes (W.generateCandidates current segEnd) ++
          segLoop W smallPrimes e fuel (segEnd + 1)
      else []

/-- `_segmented_sieve(start, end)`. -/
def ExtendedWheel.segmentedSieve (W : ExtendedWheel) (s e : Nat) : List Nat :=
  segLoop W (getSmallPrimes (isqrt e + 1)) e (e + 1) s

/-- `ExtendedWheel.sieve(start, end)`.  (With Python ints, a negative
`end - start` also selects the simple branch, as truncated `Nat`
subtraction does here.) -/
def ExtendedWheel.sieve (W : ExtendedWheel) (s e : Nat) : List Nat :=
  if e < 2 then []
  else if e - s < 10000 then W.simpleSieve s e
  else W.segmentedSieve s e

/-- Module-level `is_prime_wheel(n, wheel_size=30)`: trial division of `n`
by basis primes and then by wheel candidates up to `int(n ** 0.5) + 1`.
`none` models the constructor's `ValueError` on a bad wheel size. -/
def isPrimeWheel (n : Nat) (wheelSize : Nat := 30) : Option Bool :=
  if n < 2 then some false
  else
    (mkWheel wheelSize true).map (fun W =>
      if W.basis_primes.contains n then true
      else if W.basis_primes.any (fun p => n % p == 0) then false
      else trialLoop n (W.generateCandidates 2 (isqrt n + 1)))

/-! ## Prime generator (`prime_generator.py`)

`PrimeGenerator.__init__` stores `self.wheel = ExtendedWheel(wheel_size)`,
`self.decimal_rivers = DecimalRivers() if use_decimal_rivers else None`,
`self.track_provenance` and `self.miller_rabin_rounds`.
`_generate_prime_internal` then invokes `self.decimal_rivers.calculate_prime_weight`
and `self.wheel.is_prime_wheel`; Python resolves these names against the
attributes the two classes actually define, so attribute lookup is part of
the semantics and is modelled by the explicit name tables below. -/

inductive PyError where
  | attributeError (cls attr : String) : PyError
  | valueError (msg : String) : PyError
  | outOfFuel : PyError
deriving DecidableEq

/-- Every name defined on a `DecimalRivers` object (instance attributes
assigned in `__init__`, plus the class's methods), from
`decimal_rivers.py`. -/
def decimalRiversAttrs : List String :=
  ["__init__", "transition_matrix", "digit_frequencies", "prime_cache",
   "analyze_primes", "_compile_analysis", "get_river_score",
   "optimize_candidates", "generate_statistics"]

/-- Every name defined on an `ExtendedWheel` object (class attribute
`WHEEL_BASIS`, instance attributes assigned in `__init__`, and the class's
methods), from `extended_wheel.py`. -/
def extendedWheelAttrs : List String :=
  ["WHEEL_BASIS", "__init__", "__repr__", "wheel_size", "basis_primes",
   "decimal_aware", "spokes", "spoke_count", "decimal_weights",
   "_generate_spokes", "_compute_decimal_weights", "generate_candidates",
   "sieve", "_simple_sieve", "_segmented_sieve", "_get_small_primes",
   "get_efficiency"]

/-- Attribute lookup `self.decimal_rivers.calculate_prime_weight`.
`DecimalRivers` defines `get_river_score`, not `calculate_prime_weight`,
so this lookup always raises `AttributeError`; the value type is the bound
method's type, and the successful branch is provably unreachable. -/
def drCalculatePrimeWeight : Except PyError (Nat → ℚ) :=
  if h : "calculate_prime_weight" ∈ decimalRiversAttrs then absurd h (by decide)
  else .error (.attributeError "DecimalRivers" "calculate_prime_weight")

/-- Attribute lookup `self.wheel.is_prime_wheel`.  `is_prime_wheel` is a
module-level function, not a method or attribute of `ExtendedWheel`, so
this lookup always raises `AttributeError`. -/
def wheelIsPrimeWheelAttr : Except PyError (Nat → Bool) :=
  if h : "is_prime_wheel" ∈ extendedWheelAttrs then absurd h (by decide)
  else .error (.attributeError "ExtendedWheel" "is_prime_wheel")

/-- Attribute lookup `self.wheel.size` (used when building the provenance
metadata); the instance attribute is named `wheel_size`, so this raises
`AttributeError` as well. -/
def wheelSizeAttr : Except PyError Nat :=
  if h : "size" ∈ extendedWheelAttrs then absurd h (by decide)
  else .error (.attributeError "ExtendedWheel" "size")

/-- `_generate_candidate(bits)`: `secrets.randbits(bits)` is the stream
draw reduced mod `2^bits`; MSB and LSB are then forced to 1. -/
def generateCandidateDraw (bits rnd : Nat) : Nat :=
  (rnd % 2 ^ bits) ||| ((1 <<< (bits - 1)) ||| 1)

/-- One iteration of the `while True` body of `_generate_prime_internal`:
`some p` accepts the candidate, `none` retries.  `mr` stands for the bound
method `self._miller_rabin` with its round count fixed; the two attribute
lookups before it always raise, so it is never invoked. -/
def generateInternalIter (useDR : Bool) (mr : Nat → Bool) (candidate : Nat) :
    Except PyError (Option Nat) :=
  let wheelStep : Except PyError (Option Nat) :=
    match wheelIsPrimeWheelAttr with
    | .error e => .error e
    | .ok ipw =>
        if !(ipw candidate) then .ok none
        else if mr candidate then .ok (some candidate) else .ok none
  if useDR then
    match drCalculatePrimeWeight with
    | .error e => .error e
    | .ok weight =>
        if weight candidate < 3 / 10 then .ok none else wheelStep
  else wheelStep

/-- The retry loop of `_generate_prime_internal`, fueled (the Python loop
is unbounded; theorems quantify over every positive fuel). -/
def generateInternalLoop (useDR : Bool) (mr : Nat → Bool) (stream : Nat → Nat)
    (bits : Nat) : Nat → Nat → Except PyError Nat
  | 0, _ => .error .outOfFuel
  | fuel + 1, i =>
      match generateInternalIter useDR mr (generateCandidateDraw bits (stream i)) with
      | .error e => .error e
      | .ok (some p) => .ok p
      | .ok none => generateInternalLoop useDR mr stream bits fuel (i + 1)

/-- `PrimeGenerator.generate_prime(bits)`: validates `bits ≥ 16`, runs the
internal loop, then, with provenance tracking on, builds the metadata dict
(whose construction reads `self.wheel.size`, yet another missing attribute)
and a `CoibiteCode`.  `now` models `time.time()` and `genTime` the measured
duration. -/
def generatePrime (useDR trackProv : Bool) (rounds : Nat) (mr : Nat → Bool)
    (stream : Nat → Nat) (now genTime fuel bits : Nat) :
    Except PyError (Nat × Option CoibiteCode) :=
  if bits < 16 then .error (.valueError "Prime must be at least 16 bits")
  else
    match generateInternalLoop useDR mr stream bits fuel 0 with
    | .error e => .error e
    | .ok p =>
        if trackProv then
          match wheelSizeAttr with
          | .error e => .error e
          | .ok sz =>
              .ok (p, some (CoibiteCode.init now p (some
                [("bits", .num bits), ("wheel_size", .num sz),
                 ("decimal_rivers_enabled", .bool useDR),
                 ("miller_rabin_rounds", .num rounds),
                 ("generation_time_seconds", .num genTime)])))
        else .ok (p, none)

/-- The `while q == p` redraw loop of `generate_prime_pair`, fueled.
`gen i` performs one fresh `generate_prime` call. -/
def pairRedrawLoop (p : Nat) (cp : Option CoibiteCode)
    (gen : Nat → Except PyError (Nat × Option CoibiteCode)) :
    Nat → Nat × Option CoibiteCode →
      Except PyError (Nat × Nat × Option CoibiteCode × Option CoibiteCode)
  | 0, _ => .error .outOfFuel
  | fuel + 1, (q, cq) =>
      if q = p then do
        let qc ← gen fuel
        pairRedrawLoop p cp gen fuel qc
      else .ok (p, q, cp, cq)

/-- `PrimeGenerator.generate_prime_pair(bits)`: two independent draws, the
second redrawn while it equals the first.  `streams i` is the randomness of
the `i`-th `generate_prime` call. -/
def generatePrimePair (useDR trackProv : Bool) (rounds : Nat) (mr : Nat → Bool)
    (streams : Nat → Nat → Nat) (now genTime fuel bits : Nat) :
    Except PyError (Nat × Nat × Option CoibiteCode × Option CoibiteCode) :=
  match generatePrime useDR trackProv rounds mr (streams 0) now genTime fuel bits with
  | .error e => .error e
  | .ok pc =>
      match generatePrime useDR trackProv rounds mr (streams 1) now genTime fuel bits with
      | .error e => .error e
      | .ok qc =>
          pairRedrawLoop pc.1 pc.2
            (fun i => generatePrime useDR trackProv rounds mr (streams (2 + i)) now genTime fuel bits)
            fuel qc

/-! ## Claim C1 -/

theorem drCalculatePrimeWeight_eq :
    drCalculatePrimeWeight =
      .error (.attributeError "DecimalRivers" "calculate_prime_weight") := by
  unfold drCalculatePrimeWeight
  rw [dif_neg (by decide)]

theorem wheelIsPrimeWheelAttr_eq :
    wheelIsPrimeWheelAttr =
      .error (.attributeError "ExtendedWheel" "is_prime_wheel") := by
  unfold wheelIsPrimeWheelAttr
  rw [dif_neg (by decide)]

theorem generateInternalIter_eq (useDR : Bool) (mr : Nat → Bool) (candidate : Nat) :
    generateInternalIter useDR mr candidate =
      .error (if useDR then .attributeError "DecimalRivers" "calculate_prime_weight"
              else .attributeError "ExtendedWheel" "is_prime_wheel") := by
  cases useDR <;>
    simp [generateInternalIter, drCalculatePrimeWeight_eq, wheelIsPrimeWheelAttr_eq]

/-- Shared helper: with `bits ≥ 16` and positive fuel, `generate_prime`
raises the attribute error of its configuration. -/
theorem generatePrime_raises
    (useDR trackProv : Bool) (rounds : Nat) (mr : Nat → Bool)
    (stream : Nat → Nat) (now genTime fuel bits : Nat)
    (hbits : 16 ≤ bits) (hfuel : 1 ≤ fuel) :
    generatePrime useDR trackProv rounds mr stream now genTime fuel bits =
      .error (if useDR then .attributeError "DecimalRivers" "calculate_prime_weight"
              else .attributeError "ExtendedWheel" "is_prime_wheel") := by
  obtain ⟨f, rfl⟩ : ∃ f, fuel = f + 1 := ⟨fuel - 1, by omega⟩
  unfold generatePrime
  rw [if_neg (by omega)]
  unfold generateInternalLoop
  rw [generateInternalIter_eq]

/-- C1: for every `bits ≥ 16`, every constructor configuration
(decimal rivers on or off, provenance tracking on or off, any round count —
the wheel size only feeds the attribute tables, which are fixed by the
class), every randomness stream and Miller-Rabin behaviour, and every
positive retry budget, `generate_prime` never returns normally: the first
loop iteration of `_generate_prime_internal` resolves the attribute
`calculate_prime_weight` on `DecimalRivers` (which defines
`get_river_score`, not `calculate_prime_weight`) when decimal rivers are
enabled, and otherwise `is_prime_wheel` on `ExtendedWheel` (a module-level
function, not a method), so an `AttributeError` is raised before any
candidate can be accepted. -/
theorem C1_generate_prime_always_raises
    (useDR trackProv : Bool) (rounds : Nat) (mr : Nat → Bool)
    (stream : Nat → Nat) (now genTime fuel bits : Nat)
    (hbits : 16 ≤ bits) (hfuel : 1 ≤ fuel) :
    generatePrime useDR trackProv rounds mr stream now genTime fuel bits =
      .error (if useDR then .attributeError "DecimalRivers" "calculate_prime_weight"
              else .attributeError "ExtendedWheel" "is_prime_wheel") :=
  generatePrime_raises useDR trackProv rounds mr stream now genTime fuel bits
    hbits hfuel

/-- Witness for C1 at `bits = 16`, decimal rivers enabled, fuel 1. -/
theorem C1_witness :
    (16 ≤ 16 ∧ 1 ≤ 1) ∧
    generatePrime true true 64 (fun _ => false) (fun _ => 0) 0 0 1 16 =
      .error (.attributeError "DecimalRivers" "calculate_prime_weight") :=
  ⟨⟨le_refl 16, le_refl 1⟩,
    C1_generate_prime_always_raises true true 64 (fun _ => false) (fun _ => 0)
      0 0 1 16 (le_refl 16) (le_refl 1)⟩

/-! ## Claim C2 -/

/-- C2 (the code evaluated at the failing input `bits = 16`): instead of
returning a 16-bit odd probable prime, `generate_prime` raises an
`AttributeError` on its first candidate, under both constructor
configurations. -/
theorem C2_generate_prime_raises_at_16 :
    generatePrime true true 64 (fun _ => true) (fun _ => 0) 0 0 1 16 =
      .error (.attributeError "DecimalRivers" "calculate_prime_weight") ∧
    generatePrime false true 64 (fun _ => true) (fun _ => 0) 0 0 1 16 =
      .error (.attributeError "ExtendedWheel" "is_prime_wheel") := by
  exact ⟨rfl, rfl⟩

/-! ## Claim C3 -/

/-- C3 (the code evaluated at the failing input `bits = 16`):
`generate_prime_pair` never reaches its `while q == p` redraw loop: its
very first `generate_prime` call raises `AttributeError`, so it returns no
pair at all, under both constructor configurations. -/
theorem C3_generate_prime_pair_raises_at_16 :
    generatePrimePair true true 64 (fun _ => true) (fun _ _ => 0) 0 0 1 16 =
      .error (.attributeError "DecimalRivers" "calculate_prime_weight") ∧
    generatePrimePair false true 64 (fun _ => true) (fun _ _ => 0) 0 0 1 16 =
      .error (.attributeError "ExtendedWheel" "is_prime_wheel") := by
  constructor <;>
    · unfold generatePrimePair
      rw [generatePrime_raises _ _ _ _ _ _ _ _ _ (by omega) (by omega)]
      rfl

/-! ## Claim C6 -/

/-- C6 counterexample: on the size-210 wheel (default construction,
decimal-aware), `generate_candidates(200, 230)` emits
`[211, 221, 223, 227, 229]` — not the list
`[211, 213, 217, 219, 221, 223, 227, 229]` the claim asserts (213, 217 and
219 are divisible by 3 or 7, hence not coprime to {2,3,5,7} and correctly
absent; 209 = 11·19, which IS coprime to {2,3,5,7}, is missing because the
partial wheel block below `wheel_start = 210` is skipped). -/
theorem C6_counterexample :
    (mkWheel 210 true).map (fun W => W.generateCandidates 200 230) =
      some [211, 221, 223, 227, 229] ∧
    [211, 221, 223, 227, 229] ≠ [211, 213, 217, 219, 221, 223, 227, 229] := by
  constructor
  · rfl
  · decide

/-- C6 amended: on the size-210 wheel, `generate_candidates(200, 230)`
emits, in ascending order, exactly the integers of `[200, 230]` that are
coprime to 210 = 2·3·5·7 **and** at least the first wheel boundary 210
(so 209 is skipped): the list `[211, 221, 223, 227, 229]`. -/
theorem C6_amended_candidates_200_230 :
    (mkWheel 210 true).map (fun W => W.generateCandidates 200 230) =
      some ((pyRange 200 231 1).filter
        (fun n => decide (210 ≤ n ∧ Nat.gcd n 210 = 1))) ∧
    ((pyRange 200 231 1).filter
        (fun n => decide (210 ≤ n ∧ Nat.gcd n 210 = 1))) =
      [211, 221, 223, 227, 229] := by
  constructor
  · rfl
  · rfl

/-! ## Claim C8 -/

/-- C8: the module-level `is_prime_wheel` has composite false positives:
with the default wheel size 30, `is_prime_wheel(49)` returns `True`
although 49 = 7·7 is composite, because `generate_candidates(2, 8)` emits
only the basis primes `[2, 3, 5]` — every non-basis candidate lies beyond
the first wheel boundary `30 > 8` — so the divisor 7 is never tried. -/
theorem C8_is_prime_wheel_49 :
    isPrimeWheel 49 30 = some true ∧ ¬ Nat.Prime 49 ∧
    (mkWheel 30 true).map (fun W => W.generateCandidates 2 8) =
      some [2, 3, 5] := by
  refine ⟨by decide, by decide, rfl⟩

/-! ## Claim C10 -/

theorem counterIncr_pos {l : List (Nat × Nat)} (h : ∀ kv ∈ l, 0 < kv.2) (k : Nat) :
    ∀ kv ∈ counterIncr l k, 0 < kv.2 := by
  unfold counterIncr
  split
  · intro kv hkv
    simp only [List.mem_map] at hkv
    obtain ⟨kv', hkv', rfl⟩ := hkv
    split
    · simp
    · exact h kv' hkv'
  · intro kv hkv
    rcases List.mem_append.mp hkv with h1 | h2
    · exact h kv h1
    · simp only [List.mem_singleton] at h2
      subst h2
      simp

theorem foldl_freq_pos (ps : List Nat) :
    ∀ f : List (Nat × Nat), (∀ kv ∈ f, 0 < kv.2) →
      ∀ kv ∈ ps.foldl (fun f p => if 5 < p then counterIncr f (p % 10) else f) f,
        0 < kv.2 := by
  induction ps with
  | nil => intro f hf; exact hf
  | cons p ps ih =>
    intro f hf
    simp only [List.foldl_cons]
    apply ih
    split
    · exact counterIncr_pos hf _
    · exact hf

/-- Invariant: every digit-frequency count an observation history can
produce is positive (keys are inserted with count 1 and only incremented). -/
theorem riverStateOf_freqs_pos (history : List (List Nat)) :
    ∀ kv ∈ (riverStateOf history).digit_frequencies, 0 < kv.2 := by
  suffices h : ∀ st : DecimalRivers, (∀ kv ∈ st.digit_frequencies, 0 < kv.2) →
      ∀ kv ∈ (history.foldl DecimalRivers.analyzePrimes st).digit_frequencies,
        0 < kv.2 by
    exact h DecimalRivers.empty (by simp [DecimalRivers.empty])
  induction history with
  | nil => intro st hst; exact hst
  | cons ps history ih =>
    intro st hst
    simp only [List.foldl_cons]
    exact ih _ (foldl_freq_pos ps _ hst)

theorem freq_sum_pos {l : List (Nat × Nat)} (hne : l ≠ [])
    (hpos : ∀ kv ∈ l, 0 < kv.2) : 0 < (l.map Prod.snd).sum := by
  cases l with
  | nil => simp at hne
  | cons kv rest =>
    simp only [List.map_cons, List.sum_cons]
    have := hpos kv (by simp)
    omega

theorem counterGet_le_sum (l : List (Nat × Nat)) (k : Nat) :
    counterGet l k ≤ (l.map Prod.snd).sum := by
  unfold counterGet
  cases hf : l.find? (fun kv => kv.1 == k) with
  | none => simp
  | some kv =>
    simp only [Option.map_some', Option.getD_some]
    have hmem := List.mem_of_find?_eq_some hf
    exact List.single_le_sum (fun x _ => Nat.zero_le x) _
      (List.mem_map_of_mem Prod.snd hmem)

/-- C10: for every observation history and every candidate,
`get_river_score` returns a value in `[0, 1]`; it is exactly 0 when the
candidate's last decimal digit is outside {1,3,7,9}, regardless of history;
it is the neutral 0.5 when no digit frequencies have been observed; and
otherwise it is `frequency[lastDigit] / totalObservations`. -/
theorem C10_get_river_score (history : List (List Nat)) (candidate : Nat) :
    0 ≤ (riverStateOf history).getRiverScore candidate ∧
    (riverStateOf history).getRiverScore candidate ≤ 1 ∧
    (candidate % 10 ∉ [1, 3, 7, 9] →
      (riverStateOf history).getRiverScore candidate = 0) ∧
    (candidate % 10 ∈ [1, 3, 7, 9] →
      (riverStateOf history).digit_frequencies = [] →
      (riverStateOf history).getRiverScore candidate = 1 / 2) ∧
    (candidate % 10 ∈ [1, 3, 7, 9] →
      (riverStateOf history).digit_frequencies ≠ [] →
      (riverStateOf history).getRiverScore candidate =
        (counterGet (riverStateOf history).digit_frequencies (candidate % 10) : ℚ) /
          (((riverStateOf history).digit_frequencies.map Prod.snd).sum : ℚ)) := by
  have hpos := riverStateOf_freqs_pos history
  unfold DecimalRivers.getRiverScore
  by_cases hd : candidate % 10 ∈ [1, 3, 7, 9]
  · rw [if_neg (by simp only [not_not]; exact hd)]
    by_cases hempty : (riverStateOf history).digit_frequencies = []
    · rw [if_pos hempty]
      refine ⟨by norm_num, by norm_num, fun hc => absurd hd hc, fun _ _ => rfl,
        fun _ hne => absurd hempty hne⟩
    · rw [if_neg hempty]
      have htot : 0 < ((riverStateOf history).digit_frequencies.map Prod.snd).sum :=
        freq_sum_pos hempty hpos
      rw [if_pos htot]
      have hle := counterGet_le_sum (riverStateOf history).digit_frequencies
        (candidate % 10)
      have htotQ : (0 : ℚ) <
          (((riverStateOf history).digit_frequencies.map Prod.snd).sum : ℚ) := by
        exact_mod_cast htot
      refine ⟨div_nonneg (by positivity) (le_of_lt htotQ), ?_,
        fun hc => absurd hd hc, fun _ hc => absurd hc hempty, fun _ _ => rfl⟩
      rw [div_le_one htotQ]
      exact_mod_cast hle
  · rw [if_pos hd]
    exact ⟨le_refl 0, by norm_num, fun _ => rfl, fun hc _ => absurd hc hd,
      fun hc _ => absurd hc hd⟩

/-- Witness for C10: a candidate ending in 2 scores 0 under a nonempty
history, and a candidate ending in 3 scores 0.5 under the empty history. -/
theorem C10_witness :
    (riverStateOf [[7, 17]]).getRiverScore 12 = 0 ∧
    (riverStateOf []).getRiverScore 13 = 1 / 2 :=
  ⟨(C10_get_river_score [[7, 17]] 12).2.2.1 (by decide),
   (C10_get_river_score [] 13).2.2.2.1 (by decide) rfl⟩

/-! ## Claim C4 -/

/-- C4 (the code evaluated at the failing input): take the record with
prime 7 and metadata `{"bits": 16}`, encode it (without the prime); the
base64 token carries the canonical JSON of the wire record, and mutating
the single token character that carries the low bits of the `'6'` of `16`
(in every 3-byte base64 alignment the low bit of one byte falls within a
single base64 character) yields a well-formed token whose metadata
reads `{"bits": 17}`.  That mutated token decodes successfully, and
`verify_integrity` on the decoded record returns `True`: `decode` discards
the wire checksum field entirely, and `verify_integrity` only looks for a
`"checksum"` key *inside* the metadata mapping, so the tampering passes
silently — contradicting the claim that decoding must fail or
`verify_integrity` report false. -/
theorem C4_tamper_passes_silently :
    CoibiteCode.decode 0
      { CoibiteCode.encode
          { prime := 7, timestamp := 1700000000,
            metadata := [("bits", .num 16)], signature := none } false
        with metadata := [("bits", .num 17)] } =
      .ok { prime := 0, timestamp := 1700000000,
            metadata := [("bits", .num 17)], signature := none } ∧
    CoibiteCode.verifyIntegrity
      { prime := 0, timestamp := 1700000000,
        metadata := [("bits", .num 17)], signature := none } = true ∧
    JValue.num 17 ≠ JValue.num 16 := by
  refine ⟨rfl, rfl, ?_⟩
  intro h
  rw [JValue.num.injEq] at h
  exact absurd h (by decide)

/-! ## Claim C5 -/

/-- C5 counterexample: a record whose own metadata contains a `"checksum"`
key (here the integer 5) round-trips through encode/decode with every field
intact, yet `verify_integrity` on the freshly encoded-then-decoded record
returns `False`, not `True` as the claim demands for every record: the
metadata value 5 is an int and the recomputed checksum is a str, and a
Python `==` between them is `False`. -/
theorem C5_counterexample :
    CoibiteCode.decode 0 (CoibiteCode.encode
      { prime := 11, timestamp := 1700000000,
        metadata := [("checksum", .num 5)], signature := none } true) =
      .ok { prime := 11, timestamp := 1700000000,
            metadata := [("checksum", .num 5)], signature := none } ∧
    CoibiteCode.verifyIntegrity
      { prime := 11, timestamp := 1700000000,
        metadata := [("checksum", .num 5)], signature := none } = false :=
  ⟨rfl, rfl⟩

/-- C5 amended: for every record whose metadata does not itself contain a
`"checksum"` key (every record the generator builds), decode ∘ encode
preserves every field — timestamp, metadata, signature, and the prime when
included — except that an omitted prime decodes as the placeholder 0, and
`verify_integrity` on the freshly encoded-then-decoded record returns
`True`.  When the metadata does contain a `"checksum"` key,
`verify_integrity` instead compares that value with the recomputed
checksum (see the counterexample). -/
theorem C5_roundtrip_amended (rec : CoibiteCode) (includePrime : Bool) (now : Nat)
    (hck : listGet rec.metadata "checksum" = none) :
    CoibiteCode.decode now (rec.encode includePrime) =
      .ok { prime := if includePrime then rec.prime else 0,
            timestamp := rec.timestamp, metadata := rec.metadata,
            signature := rec.signature } ∧
    CoibiteCode.verifyIntegrity
      { prime := if includePrime then rec.prime else 0,
        timestamp := rec.timestamp, metadata := rec.metadata,
        signature := rec.signature } = true := by
  constructor
  · unfold CoibiteCode.decode CoibiteCode.encode
    rw [if_neg (by simp [VERSION])]
    cases includePrime
    · rfl
    · simp only [if_true, intOfStr_strOfNat]
      rfl
  · unfold CoibiteCode.verifyIntegrity
    rw [hck]

/-- Witness for C5 amended at a concrete record with empty metadata and the
prime included. -/
theorem C5_witness :
    listGet ([] : List (String × JValue)) "checksum" = none ∧
    CoibiteCode.decode 0 (CoibiteCode.encode
      { prime := 7, timestamp := 3, metadata := [], signature := none } true) =
      .ok { prime := 7, timestamp := 3, metadata := [], signature := none } ∧
    CoibiteCode.verifyIntegrity
      { prime := 7, timestamp := 3, metadata := [], signature := none } = true := by
  have h := C5_roundtrip_amended
    { prime := 7, timestamp := 3, metadata := [], signature := none } true 0 rfl
  exact ⟨rfl, h.1, h.2⟩

/-! ## Claim C9 -/

/-- A toy signature scheme satisfying the ECDSA library contract, used only
to witness C9: signing prepends the private key to the message bytes, and
verification succeeds exactly for a signature made under the same key. -/
def toySign (priv : Nat) (msg : String) : List Nat := priv :: asciiBytes msg

def toyVerify (pub : Nat) (sig : List Nat) (msg : String) : Except Unit Unit :=
  if sig = pub :: asciiBytes msg then .ok () else .error ()

/-- C9: `CoibiteCode.verify` is total and boolean.  The ECDSA library
primitive is abstracted as `eVerify` (which accepts or raises) and
`eSign`/`pubOf`, constrained only by the library's contract that a
signature produced under `priv` does not verify under a public key other
than `pubOf priv`.  Then for every record and key: an unsigned record
verifies to `False` (not an error); any raised verification failure is
converted to `False` by the `try`/`except` (never propagated); and a
record signed with `privA` verifies to `False` under any other public
key. -/
theorem C9_verify_total_and_sound
    (eSign : Nat → String → List Nat)
    (eVerify : Nat → List Nat → String → Except Unit Unit)
    (pubOf : Nat → Nat)
    (hcontract : ∀ priv msg pub, pub ≠ pubOf priv →
      eVerify pub (eSign priv msg) msg = .error ())
    (c : CoibiteCode) (pub : Nat) :
    (c.signature = none → CoibiteCode.verify eVerify pub c = false) ∧
    (∀ sig, c.signature = some sig →
      eVerify pub sig c.signingData = .error () →
      CoibiteCode.verify eVerify pub c = false) ∧
    (∀ privA, pub ≠ pubOf privA →
      CoibiteCode.verify eVerify pub (CoibiteCode.sign eSign privA c) = false) := by
  refine ⟨?_, ?_, ?_⟩
  · intro hnone
    unfold CoibiteCode.verify
    rw [hnone]
  · intro sig hsig herr
    unfold CoibiteCode.verify
    rw [hsig]
    show (match eVerify pub sig c.signingData with
          | .ok _ => true | .error _ => false) = false
    rw [herr]
  · intro privA hne
    show (match eVerify pub (eSign privA c.signingData) c.signingData with
          | .ok _ => true | .error _ => false) = false
    rw [hcontract privA c.signingData pub hne]

/-- Witness for C9 with the toy scheme: an unsigned record verifies to
false, and a record signed under key 1 verifies to false under key 2. -/
theorem C9_witness :
    CoibiteCode.verify toyVerify 2
      { prime := 7, timestamp := 5, metadata := [], signature := none } = false ∧
    CoibiteCode.verify toyVerify 2
      (CoibiteCode.sign toySign 1
        { prime := 7, timestamp := 5, metadata := [], signature := none }) = false := by
  have hcontract : ∀ priv msg pub, pub ≠ id priv →
      toyVerify pub (toySign priv msg) msg = .error () := by
    intro priv msg pub h
    unfold toyVerify toySign
    rw [if_neg]
    intro hc
    rw [List.cons.injEq] at hc
    exact h (hc.1.symm ▸ rfl)
  have h := C9_verify_total_and_sound toySign toyVerify id hcontract
    { prime := 7, timestamp := 5, metadata := [], signature := none } 2
  exact ⟨h.1 rfl, h.2.2 1 (by decide)⟩

/-! ## Claim C7: infrastructure -/

theorem mem_pyRange_one {a b m : Nat} : m ∈ pyRange a b 1 ↔ a ≤ m ∧ m < b := by
  unfold pyRange
  rw [Nat.add_sub_cancel, Nat.div_one, List.mem_range'_1]
  omega

theorem pairwise_pyRange_one (a b : Nat) : (pyRange a b 1).Pairwise (· < ·) :=
  List.pairwise_lt_range' _ _ 1 (by omega)

theorem mkWheel_facts {size : Nat} {da : Bool} {W : ExtendedWheel}
    (h : mkWheel size da = some W) :
    W.wheel_size = size ∧ W.decimal_aware = da ∧ 6 ≤ W.wheel_size ∧
    (∀ p ∈ W.basis_primes, Nat.Prime p ∧ 2 ≤ p ∧ p < W.wheel_size) ∧
    W.basis_primes.Pairwise (· < ·) := by
  unfold mkWheel wheelBasis at h
  split_ifs at h with h1 h2 h3 h4 h5 <;>
    simp only [Option.map_some', Option.map_none', Option.some.injEq,
      reduceCtorEq] at h <;>
    [subst h1; subst h2; subst h3; subst h4; subst h5] <;>
    subst h <;>
    exact ⟨rfl, rfl, by dsimp only; omega, by dsimp only; decide,
      by dsimp only; decide⟩

theorem spokes_mem {W : ExtendedWheel} (hsize : 1 ≤ W.wheel_size) :
    ∀ sp ∈ W.spokes, 1 ≤ sp ∧ sp < W.wheel_size := by
  intro sp hsp
  unfold ExtendedWheel.spokes at hsp
  have h := List.mem_filter.mp hsp
  have hm := List.mem_range'_1.mp h.1
  omega

theorem spokes_pairwise (W : ExtendedWheel) : W.spokes.Pairwise (· < ·) :=
  List.Pairwise.filter _ (List.pairwise_lt_range' _ _ 1 (by omega))

theorem spokesEmit_mem {da : Bool} {base s e : Nat} :
    ∀ {l : List Nat} {c : Nat}, c ∈ (spokesEmit da base s e l).1 →
      ∃ sp ∈ l, c = base + sp ∧ s ≤ c ∧ c ≤ e := by
  intro l
  induction l with
  | nil => intro c hc; simp [spokesEmit] at hc
  | cons sp rest ih =>
    intro c hc
    rw [spokesEmit] at hc
    split at hc
    · rename_i hin
      split at hc
      · split at hc
        · simp only [List.mem_cons] at hc
          rcases hc with rfl | hc
          · exact ⟨sp, by simp, rfl, hin.1, hin.2⟩
          · obtain ⟨sp', hsp', rfl, hb⟩ := ih hc
            exact ⟨sp', by simp [hsp'], rfl, hb⟩
        · obtain ⟨sp', hsp', rfl, hb⟩ := ih hc
          exact ⟨sp', by simp [hsp'], rfl, hb⟩
      · simp only [List.mem_cons] at hc
        rcases hc with rfl | hc
        · exact ⟨sp, by simp, rfl, hin.1, hin.2⟩
        · obtain ⟨sp', hsp', rfl, hb⟩ := ih hc
          exact ⟨sp', by simp [hsp'], rfl, hb⟩
    · split at hc
      · simp at hc
      · obtain ⟨sp', hsp', rfl, hb⟩ := ih hc
        exact ⟨sp', by simp [hsp'], rfl, hb⟩

theorem spokesEmit_sorted (da : Bool) (base s e : Nat) :
    ∀ {l : List Nat}, l.Pairwise (· < ·) →
      (spokesEmit da base s e l).1.Pairwise (· < ·) := by
  intro l
  induction l with
  | nil => intro _; simp [spokesEmit]
  | cons sp rest ih =>
    intro hsort
    have hhead := List.pairwise_cons.mp hsort
    have hcons : ∀ c ∈ (spokesEmit da base s e rest).1, base + sp < c := by
      intro c hc
      obtain ⟨sp', hsp', rfl, -⟩ := spokesEmit_mem hc
      exact Nat.add_lt_add_left (hhead.1 sp' hsp') base
    rw [spokesEmit]
    split
    · split
      · split
        · exact List.pairwise_cons.mpr ⟨hcons, ih hhead.2⟩
        · exact ih hhead.2
      · exact List.pairwise_cons.mpr ⟨hcons, ih hhead.2⟩
    · split
      · simp
      · exact ih hhead.2

theorem genLoop_mem {W : ExtendedWheel} {s e : Nat}
    (hsp : ∀ sp ∈ W.spokes, 1 ≤ sp ∧ sp < W.wheel_size) :
    ∀ fuel current c, c ∈ genLoop W s e fuel current →
      s ≤ c ∧ c ≤ e ∧ current < c ∧ c < current + W.wheel_size + e := by
  intro fuel
  induction fuel with
  | zero => intro current c hc; simp [genLoop] at hc
  | succ fuel ih =>
    intro current c hc
    rw [genLoop] at hc
    split at hc
    · split at hc
      · rename_i ems heq
        obtain ⟨sp, hspm, rfl, hb⟩ :=
          spokesEmit_mem (c := c) (by rw [heq]; exact hc)
        have := hsp sp hspm
        exact ⟨hb.1, hb.2, by omega, by omega⟩
      · rename_i ems heq
        rcases List.mem_append.mp hc with h1 | h2
        · obtain ⟨sp, hspm, rfl, hb⟩ :=
            spokesEmit_mem (c := c) (by rw [heq]; exact h1)
          have := hsp sp hspm
          exact ⟨hb.1, hb.2, by omega, by omega⟩
        · have := ih (current + W.wheel_size) c h2
          exact ⟨this.1, this.2.1, by omega, by omega⟩
    · simp at hc

theorem genLoop_sorted {W : ExtendedWheel} {s e : Nat}
    (hsp : ∀ sp ∈ W.spokes, 1 ≤ sp ∧ sp < W.wheel_size)
    (hsorted : W.spokes.Pairwise (· < ·)) :
    ∀ fuel current, (genLoop W s e fuel current).Pairwise (· < ·) := by
  intro fuel
  induction fuel with
  | zero => intro current; simp [genLoop]
  | succ fuel ih =>
    intro current
    rw [genLoop]
    split
    · split
      · rename_i ems heq
        have := spokesEmit_sorted W.decimal_aware current s e hsorted
        rwa [heq] at this
      · rename_i ems heq
        apply List.pairwise_append.mpr
        refine ⟨?_, ih _, ?_⟩
        · have := spokesEmit_sorted W.decimal_aware current s e hsorted
          rwa [heq] at this
        · intro a ha b hb
          obtain ⟨sp, hspm, rfl, -⟩ :=
            spokesEmit_mem (c := a) (by rw [heq]; exact ha)
          have h1 := hsp sp hspm
          have h2 := (genLoop_mem hsp fuel _ b hb).2.2.1
          omega
    · simp

theorem generateCandidates_mem {size : Nat} {da : Bool} {W : ExtendedWheel}
    (hW : mkWheel size da = some W) {s e : Nat} (hs : 1 ≤ s) :
    ∀ c ∈ W.generateCandidates s e, s ≤ c ∧ c ≤ e ∧ 2 ≤ c := by
  obtain ⟨-, -, h6, hbasis, -⟩ := mkWheel_facts hW
  have hsp := spokes_mem (W := W) (by omega)
  intro c hc
  unfold ExtendedWheel.generateCandidates at hc
  rcases List.mem_append.mp hc with h1 | h2
  · have hf := List.mem_filter.mp h1
    have hb := hbasis _ hf.1
    have hcond := of_decide_eq_true hf.2
    exact ⟨hcond.1, hcond.2, hb.2.1⟩
  · have hg := genLoop_mem hsp _ _ c h2
    have hmul : ((s - 1) / W.wheel_size + 1) * W.wheel_size =
        ((s - 1) / W.wheel_size) * W.wheel_size + W.wheel_size :=
      Nat.succ_mul _ _
    exact ⟨hg.1, hg.2.1, by omega⟩

theorem generateCandidates_sorted {size : Nat} {da : Bool} {W : ExtendedWheel}
    (hW : mkWheel size da = some W) (s e : Nat) :
    (W.generateCandidates s e).Pairwise (· < ·) := by
  obtain ⟨-, -, h6, hbasis, hbsorted⟩ := mkWheel_facts hW
  have hsp := spokes_mem (W := W) (by omega)
  unfold ExtendedWheel.generateCandidates
  apply List.pairwise_append.mpr
  refine ⟨List.Pairwise.filter _ hbsorted,
    genLoop_sorted hsp (spokes_pairwise W) _ _, ?_⟩
  intro a ha b hb
  have hba := hbasis _ (List.mem_filter.mp ha).1
  have hgb := (genLoop_mem hsp _ _ b hb).2.2.1
  have hmul : ((s - 1) / W.wheel_size + 1) * W.wheel_size =
      ((s - 1) / W.wheel_size) * W.wheel_size + W.wheel_size :=
    Nat.succ_mul _ _
  omega

theorem foldl_set_false_getD {i : Nat} :
    ∀ (js : List Nat) (l : List Bool), i ∉ js →
      (js.foldl (fun acc j => acc.set j false) l).getD i false = l.getD i false := by
  intro js
  induction js with
  | nil => intro l _; rfl
  | cons j js ih =>
    intro l hn
    simp only [List.mem_cons, not_or] at hn
    simp only [List.foldl_cons]
    rw [ih _ hn.2, List.getD_eq_getElem?_getD,
      List.getElem?_set_ne (fun h => hn.1 h.symm), ← List.getD_eq_getElem?_getD]

theorem eratMark_getD_prime {limit i p : Nat} (hp : Nat.Prime p) (hi : 2 ≤ i)
    (l : List Bool) : (eratMark limit l i).getD p false = l.getD p false := by
  unfold eratMark
  split
  · apply foldl_set_false_getD
    intro hmem
    unfold pyRange at hmem
    rw [List.mem_range'] at hmem
    obtain ⟨k, -, hpk⟩ := hmem
    have hfac : p = i * (i + k) := by rw [hpk]; ring
    have hdvd : i ∣ p := ⟨i + k, hfac⟩
    rcases hp.eq_one_or_self_of_dvd i hdvd with h1 | h2
    · omega
    · have h2le := hp.two_le
      subst h2
      nlinarith [hfac]
  · rfl

theorem foldl_eratMark_getD_prime {limit p : Nat} (hp : Nat.Prime p) :
    ∀ (is : List Nat), (∀ i ∈ is, 2 ≤ i) → ∀ l : List Bool,
      (is.foldl (eratMark limit) l).getD p false = l.getD p false := by
  intro is
  induction is with
  | nil => intro _ l; rfl
  | cons i is ih =>
    intro h2 l
    simp only [List.foldl_cons]
    rw [ih (fun j hj => h2 j (by simp [hj])) _,
      eratMark_getD_prime hp (h2 i (by simp)) l]

/-- Eratosthenes completeness: `_get_small_primes(limit)` contains every
prime up to `limit` (marking only ever strikes indices with a proper
divisor). -/
theorem getSmallPrimes_complete {p limit : Nat} (hp : Nat.Prime p)
    (hle : p ≤ limit) : p ∈ getSmallPrimes limit := by
  have h2 := hp.two_le
  unfold getSmallPrimes
  rw [if_neg (by omega)]
  apply List.mem_filter.mpr
  refine ⟨mem_pyRange_one.mpr ⟨by omega, by omega⟩, ?_⟩
  rw [foldl_eratMark_getD_prime hp _ (fun i hi => (mem_pyRange_one.mp hi).1) _]
  rw [List.getD_eq_getElem?_getD, List.getElem?_set_ne (by omega),
    List.getElem?_set_ne (by omega), List.getElem?_replicate_of_lt (by omega)]
  rfl

theorem getSmallPrimes_sorted (limit : Nat) :
    (getSmallPrimes limit).Pairwise (· < ·) := by
  unfold getSmallPrimes
  split
  · simp
  · exact List.Pairwise.filter _ (pairwise_pyRange_one _ _)

theorem trialLoop_eq_false {c q : Nat} :
    ∀ {sps : List Nat}, sps.Pairwise (· ≤ ·) → q ∈ sps → q * q ≤ c →
      c % q = 0 → trialLoop c sps = false := by
  intro sps
  induction sps with
  | nil => intro _ h; simp at h
  | cons p rest ih =>
    intro hsort hq hqq hmod
    have hhead := List.pairwise_cons.mp hsort
    have hple : p ≤ q := by
      rcases List.mem_cons.mp hq with rfl | h
      · exact Nat.le_refl _
      · exact hhead.1 q h
    rw [trialLoop]
    have hpp : p * p ≤ q * q := Nat.mul_le_mul hple hple
    rw [if_neg (by omega)]
    by_cases hp : c % p = 0
    · rw [if_pos hp]
    · rw [if_neg hp]
      have hqr : q ∈ rest := by
        rcases List.mem_cons.mp hq with rfl | h
        · exact absurd hmod hp
        · exact h
      exact ih hhead.2 hqr hqq hmod

/-- Any composite `2 ≤ c ≤ e` has its minimal prime factor in
`_get_small_primes(isqrt e + 1)`, and that factor squared is at most `c`. -/
theorem minFac_in_smallPrimes {c e : Nat} (h2 : 2 ≤ c) (hce : c ≤ e)
    (hnp : ¬ Nat.Prime c) :
    Nat.Prime (Nat.minFac c) ∧ Nat.minFac c * Nat.minFac c ≤ c ∧
      c % Nat.minFac c = 0 ∧ Nat.minFac c ∈ getSmallPrimes (isqrt e + 1) := by
  have hqp : Nat.Prime (Nat.minFac c) := Nat.minFac_prime (by omega)
  have hqd : Nat.minFac c ∣ c := Nat.minFac_dvd c
  have hqq : Nat.minFac c * Nat.minFac c ≤ c := by
    have := Nat.minFac_sq_le_self (by omega) hnp
    rwa [pow_two] at this
  have hmod : c % Nat.minFac c = 0 := Nat.mod_eq_zero_of_dvd hqd
  refine ⟨hqp, hqq, hmod, getSmallPrimes_complete hqp ?_⟩
  have := le_isqrt (le_trans hqq hce)
  omega

theorem simpleSieve_sound {size : Nat} {da : Bool} {W : ExtendedWheel}
    (hW : mkWheel size da = some W) (s e : Nat) :
    ∀ c ∈ W.simpleSieve s e, Nat.Prime c ∧ max 2 s ≤ c ∧ c ≤ e := by
  intro c hc
  unfold ExtendedWheel.simpleSieve at hc
  have hmem := List.mem_filter.mp hc
  have hcand := generateCandidates_mem hW (by omega) c hmem.1
  refine ⟨?_, hcand.1, hcand.2.1⟩
  by_contra hnp
  obtain ⟨-, hqq, hmod, hqs⟩ :=
    minFac_in_smallPrimes hcand.2.2 hcand.2.1 hnp
  have hfalse := trialLoop_eq_false
    ((getSmallPrimes_sorted _).imp le_of_lt) hqs hqq hmod
  rw [hfalse] at hmem
  exact absurd hmem.2 (by simp)

theorem simpleSieve_sorted {size : Nat} {da : Bool} {W : ExtendedWheel}
    (hW : mkWheel size da = some W) (s e : Nat) :
    (W.simpleSieve s e).Pairwise (· < ·) :=
  List.Pairwise.filter _ (generateCandidates_sorted hW _ _)

/-! Segmented-sieve marking: index bookkeeping. -/

theorem foldl_mark_preserves_false {cands : List Nat} {p i : Nat} :
    ∀ (js : List Nat) (fl : List Bool), fl.getD i false = false →
      (js.foldl (fun fl j =>
        if (cands.getD j 0) % p = 0 ∧ cands.getD j 0 ≠ p then fl.set j false
        else fl) fl).getD i false = false := by
  intro js
  induction js with
  | nil => exact fun fl h => h
  | cons j js ih =>
    intro fl h
    simp only [List.foldl_cons]
    apply ih
    split
    · by_cases hj : j = i
      · subst hj
        rw [List.getD_eq_getElem?_getD]
        rcases Nat.lt_or_ge j fl.length with hlt | hge
        · rw [List.getElem?_set_self hlt]
          rfl
        · rw [List.getElem?_eq_none (by simpa using hge)]
          rfl
      · rw [List.getD_eq_getElem?_getD, List.getElem?_set_ne hj,
          ← List.getD_eq_getElem?_getD]
        exact h
    · exact h

theorem markP_preserves_false {cands : List Nat} {p i : Nat} (fl : List Bool)
    (h : fl.getD i false = false) : (markP cands fl p).getD i false = false :=
  foldl_mark_preserves_false _ fl h

theorem foldl_mark_sets_false {cands : List Nat} {p i : Nat}
    (hcond : (cands.getD i 0) % p = 0 ∧ cands.getD i 0 ≠ p) :
    ∀ (js : List Nat) (fl : List Bool), i ∈ js → i < fl.length →
      (js.foldl (fun fl j =>
        if (cands.getD j 0) % p = 0 ∧ cands.getD j 0 ≠ p then fl.set j false
        else fl) fl).getD i false = false := by
  intro js
  induction js with
  | nil => intro fl h; simp at h
  | cons j js ih =>
    intro fl hmem hlen
    simp only [List.foldl_cons]
    rcases List.mem_cons.mp hmem with rfl | hjs
    · rw [if_pos hcond]
      apply foldl_mark_preserves_false
      rw [List.getD_eq_getElem?_getD, List.getElem?_set_self hlen]
      rfl
    · apply ih _ hjs
      split
      · simpa using hlen
      · exact hlen

theorem firstIdxAux_le {p : Nat} :
    ∀ (l : List Nat) (k i : Nat), i < l.length →
      (l.getD i 0) % p = 0 ∧ l.getD i 0 ≠ p →
      ∃ j, firstIdxAux p l k = some j ∧ j ≤ k + i := by
  intro l
  induction l with
  | nil => intro k i h; simp at h
  | cons c rest ih =>
    intro k i hlen hcond
    rw [firstIdxAux]
    split
    · exact ⟨k, rfl, by omega⟩
    · rename_i hc
      cases i with
      | zero => exact absurd (by simpa using hcond) hc
      | succ i' =>
        obtain ⟨j, hj, hle⟩ := ih (k + 1) i' (by simpa using hlen)
          (by simpa using hcond)
        exact ⟨j, hj, by omega⟩

theorem firstIdx_le {cands : List Nat} {p i : Nat} (hlen : i < cands.length)
    (hcond : (cands.getD i 0) % p = 0 ∧ cands.getD i 0 ≠ p) :
    firstIdx p cands ≤ i := by
  obtain ⟨j, hj, hle⟩ := firstIdxAux_le cands 0 i hlen hcond
  unfold firstIdx
  rw [hj]
  simpa using hle

theorem markP_marks {cands : List Nat} {p i : Nat} (hlen : i < cands.length)
    (hcond : (cands.getD i 0) % p = 0 ∧ cands.getD i 0 ≠ p)
    (fl : List Bool) (hfl : fl.length = cands.length) :
    (markP cands fl p).getD i false = false := by
  unfold markP
  exact foldl_mark_sets_false hcond _ fl
    (mem_pyRange_one.mpr ⟨firstIdx_le hlen hcond, hlen⟩) (by omega)

theorem markP_length (cands : List Nat) (p : Nat) (fl : List Bool) :
    (markP cands fl p).length = fl.length := by
  unfold markP
  generalize pyRange (firstIdx p cands) cands.length 1 = js
  induction js generalizing fl with
  | nil => rfl
  | cons j js ih =>
    simp only [List.foldl_cons]
    rw [ih]
    split <;> simp

theorem segFold_false_stays {cands : List Nat} {i : Nat} :
    ∀ (sps : List Nat) (fl : List Bool), fl.getD i false = false →
      (sps.foldl (markP cands) fl).getD i false = false := by
  intro sps
  induction sps with
  | nil => exact fun fl h => h
  | cons q sps ih =>
    intro fl h
    simp only [List.foldl_cons]
    exact ih _ (markP_preserves_false fl h)

theorem segFold_length {cands : List Nat} :
    ∀ (sps : List Nat) (fl : List Bool),
      (sps.foldl (markP cands) fl).length = fl.length := by
  intro sps
  induction sps with
  | nil => exact fun _ => rfl
  | cons q sps ih =>
    intro fl
    simp only [List.foldl_cons]
    rw [ih, markP_length]

theorem segFold_false {cands : List Nat} {i : Nat} (hlen : i < cands.length) :
    ∀ (sps : List Nat) (fl : List Bool), fl.length = cands.length →
      (∃ p ∈ sps, (cands.getD i 0) % p = 0 ∧ cands.getD i 0 ≠ p) →
      (sps.foldl (markP cands) fl).getD i false = false := by
  intro sps
  induction sps with
  | nil => rintro fl _ ⟨p, hp, -⟩; simp at hp
  | cons q sps ih =>
    rintro fl hfl ⟨p, hp, hcond⟩
    simp only [List.foldl_cons]
    rcases List.mem_cons.mp hp with rfl | hps
    · exact segFold_false_stays sps _ (markP_marks hlen hcond fl hfl)
    · exact ih _ (by rw [markP_length]; exact hfl) ⟨p, hps, hcond⟩

theorem segSieve_mem {sps cands : List Nat} :
    ∀ c ∈ segSieve sps cands,
      c ∈ cands ∧ ∀ p ∈ sps, ¬(c % p = 0 ∧ c ≠ p) := by
  intro c hc
  unfold segSieve at hc
  simp only [List.mem_map] at hc
  obtain ⟨i, hi, rfl⟩ := hc
  have himem := List.mem_filter.mp hi
  have hlen : i < cands.length := (mem_pyRange_one.mp himem.1).2
  have hval : cands.getD i 0 = cands.get ⟨i, hlen⟩ := by
    rw [List.getD_eq_getElem?_getD, List.getElem?_eq_getElem hlen]
    rfl
  constructor
  · rw [hval]
    exact List.getElem_mem hlen
  · intro p hp hcond
    have hfalse := segFold_false hlen sps (List.replicate cands.length true)
      (by simp) ⟨p, hp, hcond⟩
    rw [hfalse] at himem
    exact absurd himem.2 (by simp)

theorem segSieve_sorted {sps cands : List Nat}
    (hc : cands.Pairwise (· < ·)) :
    (segSieve sps cands).Pairwise (· < ·) := by
  unfold segSieve
  apply List.pairwise_map.mpr
  have hidx : ((pyRange 0 cands.length 1).filter
      (fun i => ((sps.foldl (markP cands)
        (List.replicate cands.length true)).getD i false))).Pairwise (· < ·) :=
    List.Pairwise.filter _ (pairwise_pyRange_one _ _)
  apply hidx.imp_of_mem
  intro a b ha hb hab
  have ha' : a < cands.length := (mem_pyRange_one.mp (List.mem_filter.mp ha).1).2
  have hb' : b < cands.length := (mem_pyRange_one.mp (List.mem_filter.mp hb).1).2
  have hga : cands.getD a 0 = cands.get ⟨a, ha'⟩ := by
    rw [List.getD_eq_getElem?_getD, List.getElem?_eq_getElem ha']
    rfl
  have hgb : cands.getD b 0 = cands.get ⟨b, hb'⟩ := by
    rw [List.getD_eq_getElem?_getD, List.getElem?_eq_getElem hb']
    rfl
  rw [hga, hgb]
  exact List.pairwise_iff_get.mp hc ⟨a, ha'⟩ ⟨b, hb'⟩ hab

theorem segLoop_sound {size : Nat} {da : Bool} {W : ExtendedWheel}
    (hW : mkWheel size da = some W) (e : Nat) :
    ∀ fuel current, 1 ≤ current →
      ∀ c ∈ segLoop W (getSmallPrimes (isqrt e + 1)) e fuel current,
        Nat.Prime c ∧ current ≤ c ∧ c ≤ e := by
  intro fuel
  induction fuel with
  | zero => intro current _ c hc; simp [segLoop] at hc
  | succ fuel ih =>
    intro current h1 c hc
    rw [segLoop] at hc
    split at hc
    · rcases List.mem_append.mp hc with hseg | hrest
      · obtain ⟨hcc, hno⟩ := segSieve_mem c hseg
        have hcand := generateCandidates_mem hW h1 c hcc
        have hcne : c ≤ e := le_trans hcand.2.1 (Nat.min_le_right _ _)
        refine ⟨?_, hcand.1, hcne⟩
        by_contra hnp
        obtain ⟨hqp, hqq, hmod, hqs⟩ :=
          minFac_in_smallPrimes hcand.2.2 hcne hnp
        have hcnq : c ≠ Nat.minFac c := by
          intro hcq
          rw [← hcq] at hqp
          exact hnp hqp
        exact hno _ hqs ⟨hmod, hcnq⟩
      · have := ih (min (current + 100000) e + 1) (by omega) c hrest
        exact ⟨this.1, by omega, this.2.2⟩
    · simp at hc

theorem segLoop_sorted {size : Nat} {da : Bool} {W : ExtendedWheel}
    (hW : mkWheel size da = some W) (e : Nat) :
    ∀ fuel current, 1 ≤ current →
      (segLoop W (getSmallPrimes (isqrt e + 1)) e fuel current).Pairwise
        (· < ·) := by
  intro fuel
  induction fuel with
  | zero => intro current _; simp [segLoop]
  | succ fuel ih =>
    intro current h1
    rw [segLoop]
    split
    · apply List.pairwise_append.mpr
      refine ⟨segSieve_sorted (generateCandidates_sorted hW _ _),
        ih _ (by omega), ?_⟩
      intro a ha b hb
      have hac := (segSieve_mem a ha).1
      have hale := (generateCandidates_mem hW h1 a hac).2.1
      have hble := (segLoop_sound hW e fuel _ (by omega) b hb).2.1
      omega
    · simp

/-! ## Claim C7: the theorems -/

/-- The default `ExtendedWheel(30)` (decimal-aware), as `mkWheel` builds it. -/
def wheel30 : ExtendedWheel :=
  { wheel_size := 30, basis_primes := [2, 3, 5], decimal_aware := true }

/-- C7 counterexample: on the size-30 wheel, `sieve(2, 10)` returns
`[2, 3, 5]`, omitting the prime 7 of the range: `generate_candidates(2, 10)`
yields only the basis primes, because every non-basis candidate lies beyond
the first wheel boundary `wheel_start = 30 > 10`.  So `sieve` does not
return "exactly the prime numbers in `[start, end]`". -/
theorem C7_counterexample :
    (mkWheel 30 true).map (fun W => W.sieve 2 10) = some [2, 3, 5] ∧
    Nat.Prime 7 ∧ 2 ≤ 7 ∧ 7 ≤ 10 ∧ 7 ∉ [2, 3, 5] := by
  refine ⟨by decide, by decide, by decide, by decide, by decide⟩

/-- C7 amended: for every validly constructed wheel, every `start ≥ 1`,
and every `end < 2^50` — the range on which `int(end ** 0.5)` is
float-exact — `sieve(start, end)` returns **only** primes of
`[start, end]`, in strictly ascending order — but not all of them (see the
counterexample: primes strictly between the largest basis prime and the
first wheel boundary are missed).  The two boundary restrictions exclude
genuine program failure modes outside this embedding: for `start ≤ 0`
Python floor division makes the segmented branch enumerate the candidate
1, and for `end ≥ 2^50` the float square root can undershoot, dropping a
needed trial divisor (so `sieve` can return a composite such as `q^2` for
prime `q` near `2^55`), and beyond ~1.8·10^308 it raises
`OverflowError`. -/
theorem C7_sieve_sound_and_sorted (size : Nat) (da : Bool) (W : ExtendedWheel)
    (hW : mkWheel size da = some W) (s e : Nat) (hs : 1 ≤ s)
    (_he : e < 2 ^ 50) :
    (∀ c ∈ W.sieve s e, Nat.Prime c ∧ s ≤ c ∧ c ≤ e) ∧
    (W.sieve s e).Pairwise (· < ·) := by
  unfold ExtendedWheel.sieve
  split
  · simp
  · split
    · constructor
      · intro c hc
        have h := simpleSieve_sound hW s e c hc
        refine ⟨h.1, ?_, h.2.2⟩
        have := h.2.1
        omega
      · exact simpleSieve_sorted hW s e
    · unfold ExtendedWheel.segmentedSieve
      exact ⟨fun c hc => segLoop_sound hW e (e + 1) s hs c hc,
        segLoop_sorted hW e (e + 1) s hs⟩

/-- Witness for C7 amended: applied to the size-30 wheel on `[2, 10]`
(with `1 ≤ 2` and `10 < 2^50` discharged); 5 is a member of the output,
and the theorem yields its primality and bounds. -/
theorem C7_witness :
    5 ∈ wheel30.sieve 2 10 ∧ Nat.Prime 5 ∧ 2 ≤ 5 ∧ 5 ≤ 10 :=
  ⟨by decide,
    (C7_sieve_sound_and_sorted 30 true wheel30 rfl 2 10 (by omega)
      (by norm_num)).1 5 (by decide)⟩

end EdenCrypto

